import Mathlib

/-!
Verification of the SoundMind v1 deterministic audio pipeline.

Shallow embedding conventions:
* float32 sample values are modelled as rationals (`ℚ`); every arithmetic
  operation the embedded code performs on the modelled values is exact in
  float32 for the inputs at which the claims are stated (multiplication by a
  0/1 mask, subtraction of an identical or zero value, division of a small
  integer by a power of two), so the rational model agrees with the float
  computation there.
* `numpy` arrays are `List ℚ`; raw PCM-16 arrays are `List ℤ`.
* square roots: the code only ever uses RMS values inside comparisons
  (`sqrt a > max (sqrt b * 0.5, EPS)`).  Since squaring is strictly monotone
  on nonnegative reals, each such comparison is embedded as the equivalent
  comparison of the radicands (`a > max (b / 4, EPS ^ 2)`); RMS-producing
  functions are therefore embedded by the value under their root
  (suffix `_sq` on the Lean name).
* Python `//` on possibly-negative ints is `Int.fdiv`; Python `int()` applied
  to a nonnegative quotient of ints is `Nat` division.
-/

namespace Soundmind

/-! ### Frozen constants (src/soundmind/audio.py) -/

def CANONICAL_SAMPLE_RATE : Nat := 16000

def FRAME_MS : Nat := 30

def HOP_MS : Nat := 10

/-- EPS = 1e-10, the fixed thresholding epsilon. -/
def EPS : ℚ := 1 / 10 ^ 10

/-! ### Basic numpy-style helpers -/

/-- np.mean over a rational list (sum divided by length; the embedded code
only applies it to nonempty slices, see the frame-count analysis). -/
def npMean (l : List ℚ) : ℚ := l.sum / (l.length : ℚ)

/-- Python slice `l[s:e]` (clamps at both ends like numpy slicing). -/
def pySlice (l : List ℚ) (s e : Nat) : List ℚ := (l.drop s).take (e - s)

/-- Samples-per-frame conversion `int(sr * frame_ms / 1000)`. -/
def msToSamples (sr ms : Nat) : Nat := sr * ms / 1000

/-- Frame count `max(1, (N - frame_samples) // hop_samples + 1)` with Python
floor semantics on the possibly negative numerator. -/
def nFramesFor (n frameS hopS : Nat) : Nat :=
  (max 1 (((n : ℤ) - (frameS : ℤ)).fdiv (hopS : ℤ) + 1)).toNat

/-! ### compute_frame_rms (audio.py:179) — embedded via radicands -/

/-- Radicand of `compute_frame_rms`: entry `i` is the value under the square
root of frame `i`'s RMS, i.e. `np.mean(frame ** 2) + EPS`. -/
def compute_frame_rms_sq (samples : List ℚ) (frame_ms hop_ms sr : Nat) : List ℚ :=
  let frameS := msToSamples sr frame_ms
  let hopS := msToSamples sr hop_ms
  (List.range (nFramesFor samples.length frameS hopS)).map
    (fun i =>
      npMean ((pySlice samples (i * hopS) (i * hopS + frameS)).map (fun v => v ^ 2)) + EPS)

/-- Radicand of the global RMS used by `build_speech_mask`
(`np.sqrt(np.mean(samples ** 2) + EPS)`). -/
def global_rms_sq (samples : List ℚ) : ℚ :=
  npMean (samples.map (fun v => v ^ 2)) + EPS

/-- Radicand of `compute_rms` (audio.py:287): `np.sqrt(np.mean(samples ** 2))`.
Note the source adds no epsilon here. -/
def compute_rms_sq (samples : List ℚ) : ℚ :=
  npMean (samples.map (fun v => v ^ 2))

/-- compute_peak_abs: `np.max(np.abs(samples))` (0 on the empty list, where the
source would raise). -/
def compute_peak_abs (samples : List ℚ) : ℚ :=
  (samples.map (fun v => |v|)).foldr max 0

/-! ### build_speech_mask (audio.py:212) -/

/-- Frame-level mask of `build_speech_mask`:
`(frame_rms > threshold).astype(np.float32)` with
`threshold = max(global_rms * 0.5, EPS)`.  The comparison
`sqrt r > max(sqrt g * 0.5, EPS)` of nonnegative values is embedded by the
squared comparison `r > max(g / 4, EPS ^ 2)`. -/
def frame_mask_of (samples : List ℚ) (frame_ms hop_ms sr : Nat) : List ℚ :=
  (compute_frame_rms_sq samples frame_ms hop_ms sr).map
    (fun r => if max (global_rms_sq samples / 4) (EPS ^ 2) < r then (1 : ℚ) else 0)

/-- frame_mask_to_samples (audio.py:250): sample `i` inherits frame
`min(i // hop_samples, len(frame_mask) - 1)`. -/
def frame_mask_to_samples (frame_mask : List ℚ) (num_samples hop_ms sr : Nat) : List ℚ :=
  let hopS := msToSamples sr hop_ms
  (List.range num_samples).map
    (fun i => frame_mask.getD (min (i / hopS) (frame_mask.length - 1)) 0)

/-- build_speech_mask (audio.py:212): frame mask converted to a sample mask. -/
def build_speech_mask (samples : List ℚ) (sr frame_ms hop_ms : Nat) : List ℚ :=
  frame_mask_to_samples (frame_mask_of samples frame_ms hop_ms sr) samples.length hop_ms sr

/-! ### Separation stage (src/soundmind/stages/separation.py:85) -/

/-- `speech = samples * mask` (elementwise float multiply). -/
def separation_speech (samples : List ℚ) : List ℚ :=
  List.zipWith (· * ·) samples
    (build_speech_mask samples CANONICAL_SAMPLE_RATE FRAME_MS HOP_MS)

/-- `residual = samples - speech` (elementwise float subtract). -/
def separation_residual (samples : List ℚ) : List ℚ :=
  List.zipWith (· - ·) samples (separation_speech samples)

/-! ### Binary64 rounding

The diarization stage compares double-precision values, not exact
rationals: `start / sr` and `i / sr` (diarization.py:103,107) are Python
float divisions, the duration test `(e - s) >= min_duration`
(diarization.py:126) subtracts doubles, and the constant
`MIN_SEGMENT_DURATION = 0.2` (diarization.py:69) denotes the binary64
value `3602879701896397 / 2^54`, which is strictly greater than `1/5`.
`fl` below models IEEE-754 binary64 round-to-nearest-even on the value
range the program works in (every magnitude is far from binary64 overflow
and underflow, so those cases cannot arise). -/

/-- Round-half-to-even to an integer, the rounding Python's `round` and
`float(f"{v:.6f}")` apply to an exact tie (non-ties round to nearest). -/
def roundHalfEven (q : ℚ) : ℤ :=
  if q - ⌊q⌋ < 1 / 2 then ⌊q⌋
  else if 1 / 2 < q - ⌊q⌋ then ⌊q⌋ + 1
  else if ⌊q⌋ % 2 = 0 then ⌊q⌋ else ⌊q⌋ + 1

/-- Python `round(v, 6)` on the exact rational value. -/
def pyRound6 (q : ℚ) : ℚ := (roundHalfEven (q * 1000000) : ℚ) / 1000000

/-- Greatest `l` with `d * 2^l ≤ n` (used for `0 < d ≤ n`), by bounded
search; the budget only needs to exceed the answer, and the answer is at
most `log2 (n / d) ≤ n`. -/
def expSearchUp (n d : ℕ) : ℕ → ℕ → ℕ
  | 0, l => l
  | fuel + 1, l => if d * 2 ^ (l + 1) ≤ n then expSearchUp n d fuel (l + 1) else l

/-- Least `m` with `d ≤ n * 2^m` (used for `0 < n < d`), by bounded
search; the answer is at most `d`. -/
def expSearchDown (n d : ℕ) : ℕ → ℕ → ℕ
  | 0, m => m
  | fuel + 1, m => if d ≤ n * 2 ^ m then m else expSearchDown n d fuel (m + 1)

/-- `⌊log₂ q⌋` for positive rational `q` (unspecified otherwise). -/
def flExp (q : ℚ) : ℤ :=
  if q.den ≤ q.num.toNat then (expSearchUp q.num.toNat q.den q.num.toNat 0 : ℤ)
  else -(expSearchDown q.num.toNat q.den q.den 0 : ℤ)

/-- IEEE-754 binary64 round-to-nearest-even: the double a Python float
operation returns for the exact rational value of its result (normal
range; overflow and underflow do not occur for the program's values). -/
def fl (q : ℚ) : ℚ :=
  if q = 0 then 0
  else
    let s : ℚ := if q < 0 then -1 else 1
    let e : ℤ := flExp |q| - 52
    s * ((roundHalfEven (|q| * (2 : ℚ) ^ (-e)) : ℚ) * (2 : ℚ) ^ e)

/-! ### Diarization stage (src/soundmind/stages/diarization.py) -/

/-- MIN_SEGMENT_DURATION = 0.2 (diarization.py:69): the binary64 value of
the source literal `0.2`, i.e. `3602879701896397 / 2^54 > 1/5`. -/
def MIN_SEGMENT_DURATION : ℚ := fl (1 / 5)

def SPEAKER_ID : String := "SPEAKER_00"

/-- The loop body of `find_speech_regions` (diarization.py:78): walks the
samples with state `(index, in_region, region_start)` and collects the
half-open sample-index regions of contiguous exactly-non-zero values. -/
def find_regions_from : List ℚ → Nat → Bool → Nat → List (Nat × Nat)
  | [], i, inR, s => if inR = true then [(s, i)] else []
  | v :: rest, i, inR, s =>
    if v ≠ 0 ∧ inR = false then find_regions_from rest (i + 1) true i
    else if v = 0 ∧ inR = true then (s, i) :: find_regions_from rest (i + 1) false s
    else find_regions_from rest (i + 1) inR s

/-- find_speech_regions (diarization.py:78): regions in seconds,
`(start / sr, i / sr)` — Python float divisions, so each quotient is the
binary64 rounding of the exact ratio. -/
def find_speech_regions (samples : List ℚ) (sr : Nat) : List (ℚ × ℚ) :=
  (find_regions_from samples 0 false 0).map
    (fun p => (fl ((p.1 : ℚ) / (sr : ℚ)), fl ((p.2 : ℚ) / (sr : ℚ))))

/-- drop_short_segments (diarization.py:112): keep `(s, e)` iff
`(e - s) >= min_duration`, the subtraction performed in binary64. -/
def drop_short_segments (segments : List (ℚ × ℚ)) (min_duration : ℚ) : List (ℚ × ℚ) :=
  segments.filter (fun p => decide (min_duration ≤ fl (p.2 - p.1)))

/-- The segment list DiarizationStage.run serializes (before rounding):
regions of exactly-non-zero samples, short ones dropped, never merged
(diarization.py:167-170). -/
def diarization_segments (samples : List ℚ) (sr : Nat) : List (ℚ × ℚ) :=
  drop_short_segments (find_speech_regions samples sr) MIN_SEGMENT_DURATION

/-- The `speakers` value of diarization.json (diarization.py:173-182): one
fixed pseudo-speaker whose segment times are rounded to 6 decimals at
serialization, or no speakers when no segment survived. -/
def diarization_speakers (samples : List ℚ) (sr : Nat) : List (String × List (ℚ × ℚ)) :=
  if diarization_segments samples sr = [] then []
  else [(SPEAKER_ID,
    (diarization_segments samples sr).map (fun p => (pyRound6 p.1, pyRound6 p.2)))]

/-! #### Specification predicates for region extraction -/

/-- Sample `k` exists and is exactly non-zero (the diarization speech test
`val != 0.0`). -/
def nzAt (x : List ℚ) (k : Nat) : Prop := ∃ v, x[k]? = some v ∧ v ≠ 0

/-- `[a, b)` is a maximal contiguous run of exactly-non-zero samples. -/
def maximalRun (x : List ℚ) (a b : Nat) : Prop :=
  a < b ∧ b ≤ x.length ∧ (∀ k, a ≤ k → k < b → nzAt x k) ∧
    (a = 0 ∨ ¬ nzAt x (a - 1)) ∧ ¬ nzAt x b

/-! ### Contract model and validator (src/soundmind/contracts.py) -/

/-- ArtifactRef (stages/base.py): structural record of one produced artifact. -/
structure ArtifactRef where
  path : String
  type : String
  role : String
  description : String
deriving DecidableEq, Repr

/-- StageContract (contracts.py:34): frozen declarative contract. -/
structure StageContract where
  name : String
  requires : List String
  produces : List String
  version : String
deriving DecidableEq, Repr

/-- ValidationError (contracts.py:126): the structured failure payload.
`type_errors` keeps the offending `(role, type)` pair of each formatted
message. -/
structure ValidationErrorS where
  stage : String
  missing_roles : List String
  available_roles : List String
  type_errors : List (String × String)
deriving DecidableEq, Repr

/-- Python `str.startswith(pre)`, modelled on the character sequence. -/
def pyStartsWith (s pre : String) : Bool := pre.data.isPrefixOf s.data

/-- The role/type MIME check of StageValidator.validate (contracts.py:211-226),
with the source's if/elif structure: returns the `(role, type)` pair recorded
in `type_errors` when the artifact violates the rule. -/
def mimeTypeError (a : ArtifactRef) : Option (String × String) :=
  if pyStartsWith a.role "audio/" then
    if ¬ pyStartsWith a.type "audio/" then some (a.role, a.type) else none
  else if pyStartsWith a.role "metadata/" then
    if a.type ≠ "application/json" then some (a.role, a.type) else none
  else none

/-- StageValidator.validate (contracts.py:184): missing-role and MIME checks,
raising a structured ValidationError exactly when either list is nonempty. -/
def validate (contract : StageContract) (available : List ArtifactRef) :
    Except ValidationErrorS Unit :=
  let available_roles := available.map (fun a => a.role)
  let missing_roles := contract.requires.filter (fun r => ¬ r ∈ available_roles)
  let type_errors := available.filterMap mimeTypeError
  if missing_roles ≠ [] ∨ type_errors ≠ [] then
    Except.error
      { stage := contract.name
        missing_roles := missing_roles
        available_roles := available_roles
        type_errors := type_errors }
  else Except.ok ()

/-! ### Rollup stage (src/soundmind/stages/rollup.py) -/

/-- A stage status document as read back from `status.json`; the rollup only
inspects the optional `success` flag (`s.get("success", False)`). -/
structure StageStatus where
  success : Option Bool
deriving DecidableEq, Repr

def EXPECTED_STAGES : List String :=
  ["ingest", "separation", "sqi", "diarization", "events"]

/-- The overall-success computation of RollupStage.run (rollup.py:94-106):
statuses of the expected stages are read (a missing file is `none`), a
missing stage forces failure, otherwise every present status must carry
`success = true`. -/
def rollup_overall_success (statuses : String → Option StageStatus) : Bool :=
  let present := EXPECTED_STAGES.filterMap
    (fun name => (statuses name).map (fun st => (name, st)))
  let missing := EXPECTED_STAGES.filter (fun name => (statuses name).isNone)
  if missing ≠ [] then false
  else present.all (fun p => p.2.success.getD false)

/-- RollupStage.run (rollup.py:77-119): records the aggregate result in its
own status and returns, producing no new artifacts.  It is a total function
of the observed statuses — the embedding of "never raises a failure
signal". -/
def RollupStage_run (statuses : String → Option StageStatus) :
    Bool × List ArtifactRef :=
  (rollup_overall_success statuses, [])

/-! ### PCM-16 decode and the events non-speech mask
(src/soundmind/audio.py:76, src/soundmind/stages/events.py:87) -/

/-- The PCM-16 float decode relation `float = int16 / 32768` used by
`sf.read(dtype="float32")` on a PCM-16 file; exact in float32 for
`|v| ≤ 32768`. -/
def decodePcm16 (v : ℤ) : ℚ := (v : ℚ) / 32768

/-- _build_non_speech_mask_from_int16 (events.py:87):
`(speech_int16 == 0).astype(np.float32)` — 1.0 marks non-speech. -/
def build_non_speech_mask_from_int16 (speech_int16 : List ℤ) : List ℚ :=
  speech_int16.map (fun v => if v = 0 then (1 : ℚ) else 0)

/-- write_wav (audio.py:96): hard clip to `[-1, 1]`, then PCM-16 quantization
(libsndfile scales by 32768, rounds to nearest, and saturates the int16
range). -/
def write_wav_int16 (samples : List ℚ) : List ℤ :=
  samples.map (fun v =>
    max (-32768) (min 32767 (roundHalfEven (max (-1) (min 1 v) * 32768))))

/-! ### Events stage (src/soundmind/stages/events.py) -/

/-- IMPULSE_PEAK_THRESHOLD = 0.01 (events.py:76). -/
def IMPULSE_PEAK_THRESHOLD : ℚ := 1 / 100

/-- The locked peak ratio 0.6 (events.py:77). -/
def IMPULSE_PEAK_RATIO_C : ℚ := 3 / 5

/-- IMPULSE_MAX_DURATION_SEC = 0.1 (events.py:78). -/
def IMPULSE_MAX_DURATION_SEC : ℚ := 1 / 10

def EVENT_DECIMAL_PLACES : Nat := 6

/-- One serialized event dict `{type, start_s, end_s, confidence}`. -/
structure EventC where
  type : String
  start_s : ℚ
  end_s : ℚ
  confidence : ℚ
deriving DecidableEq, Repr

/-- The commit-9 all-or-nothing guard `np.all(non_speech_mask[a:b] > 0.5)`
(events.py:189-190). -/
def spanAllNonSpeech (mask : List ℚ) (a b : Nat) : Bool :=
  (pySlice mask a b).all (fun v => decide ((1 : ℚ) / 2 < v))

/-- The forward-extension loop of the impulse detector (events.py:167-183):
starting from frame `j` with current end `impulseEnd`, keep absorbing frames
while they stay within the duration budget, remain in non-speech, and keep a
peak at or above the threshold; returns the final `(j, impulse_end)`.

The recursion is bounded by an explicit iteration budget (first `Nat`
argument): the loop exits as soon as `j ≥ nFrames` and `j` increases by one
each iteration, so any budget `≥ nFrames - j` reproduces the unbounded
source loop exactly (`extend_impulse_fuel_irrel`); call sites pass
`nFrames`. -/
def extend_impulse (samples mask : List ℚ)
    (frameS hopS maxDurS nFrames impulseStart : Nat) (threshold : ℚ) :
    Nat → Nat → Nat → Nat × Nat
  | 0, j, impulseEnd => (j, impulseEnd)
  | fuel + 1, j, impulseEnd =>
    if j < nFrames then
      let nextStart := j * hopS
      let nextEnd := min (nextStart + frameS) samples.length
      if (maxDurS : ℤ) < (nextEnd : ℤ) - (impulseStart : ℤ) then (j, impulseEnd)
      else if npMean (pySlice mask nextStart nextEnd) < 1 / 2 then (j, impulseEnd)
      else if compute_peak_abs (pySlice samples nextStart nextEnd) < threshold then
        (j, impulseEnd)
      else
        extend_impulse samples mask frameS hopS maxDurS nFrames impulseStart threshold
          fuel (j + 1) nextEnd
    else (j, impulseEnd)

/-- The outer scan loop of `_detect_impulses_non_speech_only`
(events.py:145-205), returning the sample spans of the emitted candidates.
The source resumes the outer loop at `i = j` after an extension.  As with
`extend_impulse`, the first `Nat` argument is an iteration budget: the loop
exits at `i ≥ nFrames` and `i` strictly increases each iteration (the resume
index satisfies `j ≥ i + 1`, `extend_impulse_fst_ge`), so any budget
`≥ nFrames - i` reproduces the source loop (`detect_impulses_loop_fuel_irrel`);
call sites pass `nFrames`. -/
def detect_impulses_loop (samples mask : List ℚ)
    (sr frameS hopS maxDurS nFrames : Nat) (threshold : ℚ) :
    Nat → Nat → List (Nat × Nat)
  | 0, _ => []
  | fuel + 1, i =>
    if i < nFrames then
      let startSample := i * hopS
      let endSample := min (startSample + frameS) samples.length
      if npMean (pySlice mask startSample endSample) < 1 / 2 then
        detect_impulses_loop samples mask sr frameS hopS maxDurS nFrames threshold
          fuel (i + 1)
      else if threshold < compute_peak_abs (pySlice samples startSample endSample) then
        let je := extend_impulse samples mask frameS hopS maxDurS nFrames startSample
          threshold nFrames (i + 1) endSample
        let rest := detect_impulses_loop samples mask sr frameS hopS maxDurS nFrames
          threshold fuel je.1
        if ((je.2 : ℚ) - (startSample : ℚ)) / (sr : ℚ) ≤ IMPULSE_MAX_DURATION_SEC ∧
            spanAllNonSpeech mask startSample je.2 = true then
          (startSample, je.2) :: rest
        else rest
      else
        detect_impulses_loop samples mask sr frameS hopS maxDurS nFrames threshold
          fuel (i + 1)
    else []

/-- Candidate span to serialized event dict (events.py:191-200): timestamps
converted to seconds and pre-rounded via `float(f"{v:.6f}")`, fixed type and
confidence. -/
def span_to_event (sr : Nat) (p : Nat × Nat) : EventC :=
  { type := "impulsive_sound"
    start_s := pyRound6 ((p.1 : ℚ) / (sr : ℚ))
    end_s := pyRound6 ((p.2 : ℚ) / (sr : ℚ))
    confidence := 1 }

/-- The sort key `(e["start_s"], e["end_s"], e["type"])` (events.py:208),
compared the way Python compares tuples: lexicographically. -/
def event_key (e : EventC) : Lex (ℚ × Lex (ℚ × String)) :=
  toLex (e.start_s, toLex (e.end_s, e.type))

/-- Boolean comparator for the stable sort on the tuple key. -/
def event_key_le (a b : EventC) : Bool := decide (event_key a ≤ event_key b)

/-- All spans the detector emits for the given residual and non-speech
mask (the loop of `_detect_impulses_non_speech_only` before dict
construction). -/
def detect_impulse_spans (residual_samples mask : List ℚ)
    (sr frame_ms hop_ms : Nat) : List (Nat × Nat) :=
  let frameS := msToSamples sr frame_ms
  let hopS := msToSamples sr hop_ms
  let global_peak := compute_peak_abs residual_samples
  let threshold := max (global_peak * IMPULSE_PEAK_RATIO_C) IMPULSE_PEAK_THRESHOLD
  let maxDurS := (IMPULSE_MAX_DURATION_SEC * (sr : ℚ)).floor.toNat
  let nFrames := nFramesFor residual_samples.length frameS hopS
  detect_impulses_loop residual_samples mask sr frameS hopS maxDurS nFrames threshold
    nFrames 0

/-- _detect_impulses_non_speech_only (events.py:109-210): emitted spans are
serialized to event dicts and stably sorted by `(start_s, end_s, type)`. -/
def detect_impulses_non_speech_only (residual_samples mask : List ℚ)
    (sr frame_ms hop_ms : Nat) : List EventC :=
  ((detect_impulse_spans residual_samples mask sr frame_ms hop_ms).map
    (span_to_event sr)).mergeSort event_key_le

/-! ### Deterministic event serialization (events.py:218-248) -/

/-- ASCII digit for `d % 10`. -/
def digitChar6 (d : Nat) : Char := Char.ofNat (48 + d % 10)

/-- The six digits after the decimal point of `m / 10^6` (zero padded). -/
def pad6 (m : Nat) : List Char :=
  [digitChar6 (m / 100000), digitChar6 (m / 10000), digitChar6 (m / 1000),
   digitChar6 (m / 100), digitChar6 (m / 10), digitChar6 m]

/-- Python `f"{v:.6f}"`: round to 6 decimals (half-even on exact values) and
render with exactly six digits after the point. -/
def format6 (q : ℚ) : String :=
  let n := roundHalfEven (q * 1000000)
  let sign := if n < 0 then "-" else ""
  let m := n.natAbs
  sign ++ toString (m / 1000000) ++ "." ++ String.mk (pad6 (m % 1000000))

/-- Python `str` of the float values the serializer interpolates for
`confidence`; only whole-valued floats are ever rendered (the fixed 1.0). -/
def pyFloatStr (q : ℚ) : String :=
  if q.den = 1 then toString q.num ++ ".0" else toString q

/-- _serialize_events_json (events.py:218-248): manual line-by-line JSON with
sorted keys, two-space indent, trailing newline and `:.6f` timestamps. -/
def serialize_events_json (events : List EventC) : String :=
  let n := events.length
  let eventLines := events.enum.flatMap (fun ie =>
    let idx := ie.1
    let e := ie.2
    let comma := if idx < n - 1 then "," else ""
    ["    \x7b",
     "      \"confidence\": " ++ pyFloatStr e.confidence ++ ",",
     "      \"end_s\": " ++ format6 e.end_s ++ ",",
     "      \"start_s\": " ++ format6 e.start_s ++ ",",
     "      \"type\": \"" ++ e.type ++ "\"",
     "    \x7d" ++ comma])
  String.intercalate "\n"
    (["\x7b", "  \"events\": ["] ++ eventLines ++ ["  ]", "\x7d"]) ++ "\n"

/-- Number of characters after the rightmost `.` of a rendered number. -/
def digitsAfterPoint (s : String) : Nat :=
  (s.data.reverse.takeWhile (fun c => c != '.')).length

/-! ### SQI metrics and the end-to-end artifact bundle
(src/soundmind/stages/sqi.py, src/soundmind/pipeline.py) -/

/-- compute_zero_crossing_rate (audio.py:297): fraction of adjacent sign
changes (`np.sign`; 0 for signals shorter than two samples). -/
def compute_zero_crossing_rate (samples : List ℚ) : ℚ :=
  if samples.length < 2 then 0
  else
    let signs := samples.map
      (fun v => if 0 < v then (1 : ℤ) else if v < 0 then -1 else 0)
    (((signs.drop 1).zip signs).countP (fun p => decide (p.1 ≠ p.2)) : ℚ) /
      ((samples.length : ℚ) - 1)

/-- The locked seven-metric record of sqi.json (sqi.py:95-105); `rms` is
represented by its radicand (`compute_rms_sq`). -/
structure SqiMetrics where
  duration_sec : ℚ
  num_samples : Nat
  peak_abs : ℚ
  rms_sq : ℚ
  sample_rate_hz : Nat
  speech_ratio : ℚ
  zero_crossing_rate : ℚ
deriving DecidableEq, Repr

/-- SqiStage.run's metric computation on the decoded speech stem. -/
def sqi_metrics (samples : List ℚ) : SqiMetrics :=
  { duration_sec := (samples.length : ℚ) / (CANONICAL_SAMPLE_RATE : ℚ)
    num_samples := samples.length
    peak_abs := compute_peak_abs samples
    rms_sq := compute_rms_sq samples
    sample_rate_hz := CANONICAL_SAMPLE_RATE
    speech_ratio := npMean (build_speech_mask samples CANONICAL_SAMPLE_RATE
      FRAME_MS HOP_MS)
    zero_crossing_rate := compute_zero_crossing_rate samples }

/-- The content of every artifact the pipeline produces from a canonicalized
input: both PCM-16 stems, the SQI metrics of the decoded speech stem, the
diarization speakers of the decoded speech stem, and the serialized
events.json computed from the decoded residual stem and the int16 non-speech
mask.  Each component is a pure function of the input samples; run
timestamps enter only the status files, which are not artifacts. -/
def pipeline_outputs (samples : List ℚ) :
    List ℤ × List ℤ × SqiMetrics × List (String × List (ℚ × ℚ)) × String :=
  let speech := separation_speech samples
  let residual := separation_residual samples
  let speech16 := write_wav_int16 speech
  let residual16 := write_wav_int16 residual
  let speechF := speech16.map decodePcm16
  (speech16, residual16, sqi_metrics speechF,
    diarization_speakers speechF CANONICAL_SAMPLE_RATE,
    serialize_events_json (detect_impulses_non_speech_only
      (residual16.map decodePcm16) (build_non_speech_mask_from_int16 speech16)
      CANONICAL_SAMPLE_RATE FRAME_MS HOP_MS))

lemma nzAt_of_getElem {x : List ℚ} {k : Nat} {v : ℚ} (h : x[k]? = some v) (hv : v ≠ 0) :
    nzAt x k := ⟨v, h, hv⟩

lemma not_nzAt_of_getElem_zero {x : List ℚ} {k : Nat} (h : x[k]? = some 0) :
    ¬ nzAt x k := by
  rintro ⟨w, hw, hwne⟩
  rw [h] at hw
  exact hwne (Option.some_injective _ hw).symm

lemma not_nzAt_length (x : List ℚ) : ¬ nzAt x x.length := by
  rintro ⟨w, hw, -⟩
  rw [List.getElem?_eq_none (le_refl _)] at hw
  exact Option.noConfusion hw

lemma drop_cons_inv {x rest : List ℚ} {i : Nat} {v : ℚ} (h : x.drop i = v :: rest) :
    x[i]? = some v ∧ x.drop (i + 1) = rest ∧ i < x.length := by
  have h0 : x[i]? = some v := by
    have := List.getElem?_drop x i 0
    rw [h] at this
    simpa using this.symm
  refine ⟨h0, ?_, ?_⟩
  · have h2 : (x.drop i).drop 1 = x.drop (i + 1) := List.drop_drop 1 i x
    rw [h] at h2
    simpa using h2.symm
  · exact List.getElem?_eq_some.mp h0 |>.1

lemma find_regions_from_sound :
    ∀ (rest x : List ℚ) (i : Nat) (inR : Bool) (s : Nat),
      rest = x.drop i → i ≤ x.length →
      (inR = true → s < i ∧ (∀ k, s ≤ k → k < i → nzAt x k) ∧ (s = 0 ∨ ¬ nzAt x (s - 1))) →
      (inR = false → i = 0 ∨ ¬ nzAt x (i - 1)) →
      ∀ a b, (a, b) ∈ find_regions_from rest i inR s → maximalRun x a b := by
  intro rest
  induction rest with
  | nil =>
    intro x i inR s hrest hi hin hout a b hmem
    cases inR with
    | false => simp [find_regions_from] at hmem
    | true =>
      simp [find_regions_from] at hmem
      obtain ⟨ha, hb⟩ := hmem
      rw [ha, hb]
      have hlen : x.length ≤ i := List.drop_eq_nil_iff.mp hrest.symm
      have hieq : i = x.length := le_antisymm hi hlen
      obtain ⟨hsi, hnz, hlm⟩ := hin rfl
      refine ⟨hsi, hieq.le, fun k hk1 hk2 => hnz k hk1 hk2, hlm, ?_⟩
      rw [hieq]
      exact not_nzAt_length x
  | cons v rest ih =>
    intro x i inR s hrest hi hin hout a b hmem
    obtain ⟨hvi, hrest', hilt⟩ := drop_cons_inv hrest.symm
    by_cases h1 : v ≠ 0 ∧ inR = false
    · rw [find_regions_from, if_pos h1] at hmem
      refine ih x (i + 1) true i hrest'.symm hilt ?_ (by intro h; cases h) a b hmem
      intro _
      refine ⟨Nat.lt_succ_self i, ?_, hout h1.2⟩
      intro k hk1 hk2
      have : k = i := by omega
      subst this
      exact nzAt_of_getElem hvi h1.1
    · by_cases h2 : v = 0 ∧ inR = true
      · rw [find_regions_from, if_neg h1, if_pos h2] at hmem
        rcases List.mem_cons.mp hmem with heq | hmem'
        · obtain ⟨ha, hb⟩ := Prod.mk.injEq .. ▸ heq
          subst ha; subst hb
          obtain ⟨hsi, hnz, hlm⟩ := hin h2.2
          refine ⟨hsi, hilt.le, fun k hk1 hk2 => hnz k hk1 hk2, hlm, ?_⟩
          exact not_nzAt_of_getElem_zero (h2.1 ▸ hvi)
        · refine ih x (i + 1) false s hrest'.symm hilt (by intro h; cases h) ?_ a b hmem'
          intro _
          exact Or.inr (by simpa using not_nzAt_of_getElem_zero (h2.1 ▸ hvi))
      · rw [find_regions_from, if_neg h1, if_neg h2] at hmem
        cases inR with
        | true =>
          have hv0 : v ≠ 0 := by
            intro hv; exact h2 ⟨hv, rfl⟩
          refine ih x (i + 1) true s hrest'.symm hilt ?_ (by intro h; cases h) a b hmem
          intro _
          obtain ⟨hsi, hnz, hlm⟩ := hin rfl
          refine ⟨Nat.lt_succ_of_lt hsi, ?_, hlm⟩
          intro k hk1 hk2
          by_cases hk : k < i
          · exact hnz k hk1 hk
          · have : k = i := by omega
            subst this
            exact nzAt_of_getElem hvi hv0
        | false =>
          have hv0 : v = 0 := by
            by_contra hv; exact h1 ⟨hv, rfl⟩
          refine ih x (i + 1) false s hrest'.symm hilt (by intro h; cases h) ?_ a b hmem
          intro _
          exact Or.inr (by simpa using not_nzAt_of_getElem_zero (hv0 ▸ hvi))

lemma find_regions_from_complete :
    ∀ (rest x : List ℚ) (i : Nat) (inR : Bool) (s : Nat),
      rest = x.drop i → i ≤ x.length →
      (inR = true → s < i ∧ (∀ k, s ≤ k → k < i → nzAt x k) ∧ (s = 0 ∨ ¬ nzAt x (s - 1))) →
      (inR = false → i = 0 ∨ ¬ nzAt x (i - 1)) →
      ∀ a b, maximalRun x a b → (i ≤ a ∨ (inR = true ∧ a = s)) →
        (a, b) ∈ find_regions_from rest i inR s := by
  intro rest
  induction rest with
  | nil =>
    intro x i inR s hrest hi hin hout a b hrun hcond
    have hlen : x.length ≤ i := List.drop_eq_nil_iff.mp hrest.symm
    have hieq : i = x.length := le_antisymm hi hlen
    obtain ⟨hab, hble, hnz, hlm, hmax⟩ := hrun
    rcases hcond with hia | ⟨hinR, has⟩
    · omega
    · subst hinR
      obtain ⟨hsi, hnzin, -⟩ := hin rfl
      have hbi : b = i := by
        by_contra hne
        have hblt : b < i := by omega
        exact hmax (hnzin b (by omega) hblt)
      simp [find_regions_from, has, hbi]
  | cons v rest ih =>
    intro x i inR s hrest hi hin hout a b hrun hcond
    obtain ⟨hvi, hrest', hilt⟩ := drop_cons_inv hrest.symm
    obtain ⟨hab, hble, hnz, hlm, hmax⟩ := hrun
    by_cases h1 : v ≠ 0 ∧ inR = false
    · rw [find_regions_from, if_pos h1]
      have hia : i ≤ a := by
        rcases hcond with h | ⟨hc, -⟩
        · exact h
        · rw [h1.2] at hc; cases hc
      refine ih x (i + 1) true i hrest'.symm hilt ?_ (by intro h; cases h)
        a b ⟨hab, hble, hnz, hlm, hmax⟩ ?_
      · intro _
        refine ⟨Nat.lt_succ_self i, ?_, hout h1.2⟩
        intro k hk1 hk2
        have : k = i := by omega
        subst this
        exact nzAt_of_getElem hvi h1.1
      · by_cases hai : a = i
        · exact Or.inr ⟨rfl, hai⟩
        · exact Or.inl (by omega)
    · by_cases h2 : v = 0 ∧ inR = true
      · rw [find_regions_from, if_neg h1, if_pos h2]
        have hnzi : ¬ nzAt x i := not_nzAt_of_getElem_zero (h2.1 ▸ hvi)
        obtain ⟨hsi, hnzin, -⟩ := hin h2.2
        rcases hcond with hia | ⟨-, has⟩
        · -- the run lies strictly beyond the region being closed
          have hane : a ≠ i := fun he => hnzi (he ▸ hnz a le_rfl hab)
          have hia' : i + 1 ≤ a := by omega
          exact List.mem_cons_of_mem _
            (ih x (i + 1) false s hrest'.symm hilt (by intro h; cases h)
              (fun _ => Or.inr (by simpa using hnzi))
              a b ⟨hab, hble, hnz, hlm, hmax⟩ (Or.inl hia'))
        · -- the run is exactly the region being closed at this zero sample
          subst has
          have hbi : b = i := by
            have hble' : b ≤ i := by
              by_contra hgt
              exact hnzi (hnz i (by omega) (by omega))
            by_contra hne
            exact hmax (hnzin b (by omega) (by omega))
          subst hbi
          exact List.mem_cons_self _ _
      · rw [find_regions_from, if_neg h1, if_neg h2]
        cases inR with
        | true =>
          have hv0 : v ≠ 0 := fun hv => h2 ⟨hv, rfl⟩
          obtain ⟨hsi, hnzin, hslm⟩ := hin rfl
          refine ih x (i + 1) true s hrest'.symm hilt ?_ (by intro h; cases h)
            a b ⟨hab, hble, hnz, hlm, hmax⟩ ?_
          · intro _
            refine ⟨Nat.lt_succ_of_lt hsi, ?_, hslm⟩
            intro k hk1 hk2
            by_cases hk : k < i
            · exact hnzin k hk1 hk
            · have : k = i := by omega
              subst this
              exact nzAt_of_getElem hvi hv0
          · rcases hcond with hia | ⟨-, has⟩
            · by_cases hai : a = i
              · -- impossible: the sample left of `a = i` is non-zero
                exfalso
                rcases hlm with h0 | hnlm
                · omega
                · refine hnlm ?_
                  rw [hai]
                  exact hnzin (i - 1) (by omega) (by omega)
              · exact Or.inl (by omega)
            · exact Or.inr ⟨rfl, has⟩
        | false =>
          have hv0 : v = 0 := by
            by_contra hv; exact h1 ⟨hv, rfl⟩
          have hnzi : ¬ nzAt x i := not_nzAt_of_getElem_zero (hv0 ▸ hvi)
          have hia : i ≤ a := by
            rcases hcond with h | ⟨hc, -⟩
            · exact h
            · cases hc
          have hane : a ≠ i := fun he => hnzi (he ▸ hnz a le_rfl hab)
          exact ih x (i + 1) false s hrest'.symm hilt (by intro h; cases h)
            (fun _ => Or.inr (by simpa using hnzi))
            a b ⟨hab, hble, hnz, hlm, hmax⟩ (Or.inl (by omega))


lemma find_regions_characterization (x : List ℚ) (a b : Nat) :
    (a, b) ∈ find_regions_from x 0 false 0 ↔ maximalRun x a b := by
  constructor
  · intro h
    exact find_regions_from_sound x x 0 false 0 (List.drop_zero x).symm (Nat.zero_le _)
      (by intro h'; cases h') (fun _ => Or.inl rfl) a b h
  · intro h
    exact find_regions_from_complete x x 0 false 0 (List.drop_zero x).symm (Nat.zero_le _)
      (by intro h'; cases h') (fun _ => Or.inl rfl) a b h (Or.inl (Nat.zero_le a))

lemma find_regions_from_ordered :
    ∀ (rest : List ℚ) (i : Nat) (inR : Bool) (s lo : Nat),
      (inR = true → s < i ∧ lo ≤ s) → (inR = false → lo ≤ i) →
      (find_regions_from rest i inR s).Pairwise (fun p q => p.2 ≤ q.1) ∧
        ∀ p ∈ find_regions_from rest i inR s, lo ≤ p.1 ∧ p.1 < p.2 := by
  intro rest
  induction rest with
  | nil =>
    intro i inR s lo hin hout
    cases inR with
    | false => simp [find_regions_from]
    | true =>
      simp [find_regions_from]
      exact ⟨(hin rfl).2, (hin rfl).1⟩
  | cons v rest ih =>
    intro i inR s lo hin hout
    by_cases h1 : v ≠ 0 ∧ inR = false
    · rw [find_regions_from, if_pos h1]
      exact ih (i + 1) true i lo
        (fun _ => ⟨Nat.lt_succ_self i, hout h1.2⟩) (by intro h; cases h)
    · by_cases h2 : v = 0 ∧ inR = true
      · rw [find_regions_from, if_neg h1, if_pos h2]
        obtain ⟨hsi, hlos⟩ := hin h2.2
        obtain ⟨hpw, hbd⟩ := ih (i + 1) false s (i + 1) (by intro h; cases h)
          (fun _ => le_rfl)
        constructor
        · refine List.pairwise_cons.mpr ⟨?_, hpw⟩
          intro q hq
          have := (hbd q hq).1
          simp only
          omega
        · intro p hp
          rcases List.mem_cons.mp hp with heq | hp'
          · rw [heq]
            exact ⟨hlos, hsi⟩
          · obtain ⟨hb1, hb2⟩ := hbd p hp'
            exact ⟨by omega, hb2⟩
      · rw [find_regions_from, if_neg h1, if_neg h2]
        cases inR with
        | true =>
          exact ih (i + 1) true s lo
            (fun _ => ⟨Nat.lt_succ_of_lt (hin rfl).1, (hin rfl).2⟩) (by intro h; cases h)
        | false =>
          exact ih (i + 1) false s lo (by intro h; cases h)
            (fun _ => Nat.le_succ_of_le (hout rfl))

/-! #### Events lemmas -/

lemma spanAllNonSpeech_spec {mask : List ℚ} {a b : Nat}
    (h : spanAllNonSpeech mask a b = true) :
    ∀ k, a ≤ k → k < b → ∀ v, mask[k]? = some v → 1 / 2 < v := by
  intro k hak hkb v hv
  have h1 : (mask.drop a)[k - a]? = some v := by
    have := (List.getElem?_drop mask a (k - a)).symm
    rw [Nat.add_sub_cancel' hak] at this
    rw [← this]
    exact hv
  have h2 : (pySlice mask a b)[k - a]? = some v := by
    unfold pySlice
    rw [List.getElem?_take_of_lt (by omega)]
    exact h1
  have hmem : v ∈ pySlice mask a b := List.getElem?_mem h2
  have := List.all_eq_true.mp h v hmem
  simpa using this

lemma extend_impulse_fst_ge (samples mask : List ℚ)
    (frameS hopS maxDurS nFrames impulseStart : Nat) (threshold : ℚ) :
    ∀ fuel j impulseEnd,
      j ≤ (extend_impulse samples mask frameS hopS maxDurS nFrames impulseStart
        threshold fuel j impulseEnd).1 := by
  intro fuel
  induction fuel with
  | zero => intro j e; exact le_rfl
  | succ fuel ih =>
    intro j e
    rw [extend_impulse]
    by_cases hj : j < nFrames
    · rw [if_pos hj]
      dsimp only
      split_ifs with h1 h2 h3
      · exact le_rfl
      · exact le_rfl
      · exact le_rfl
      · have := ih (j + 1) (min (j * hopS + frameS) samples.length)
        omega
    · rw [if_neg hj]

lemma extend_impulse_exit (samples mask : List ℚ)
    (frameS hopS maxDurS nFrames impulseStart : Nat) (threshold : ℚ)
    {j : Nat} (hj : nFrames ≤ j) :
    ∀ fuel impulseEnd,
      extend_impulse samples mask frameS hopS maxDurS nFrames impulseStart threshold
        fuel j impulseEnd = (j, impulseEnd) := by
  intro fuel e
  cases fuel with
  | zero => rfl
  | succ fuel =>
    rw [extend_impulse, if_neg (by omega)]

/-- Any iteration budget of at least `nFrames - j` yields the same result:
the budgeted recursion is exactly the source's unbounded while loop. -/
lemma extend_impulse_fuel_irrel (samples mask : List ℚ)
    (frameS hopS maxDurS nFrames impulseStart : Nat) (threshold : ℚ) :
    ∀ (n₁ n₂ j impulseEnd : Nat), nFrames - j ≤ n₁ → nFrames - j ≤ n₂ →
      extend_impulse samples mask frameS hopS maxDurS nFrames impulseStart threshold
          n₁ j impulseEnd =
        extend_impulse samples mask frameS hopS maxDurS nFrames impulseStart threshold
          n₂ j impulseEnd := by
  intro n₁
  induction n₁ with
  | zero =>
    intro n₂ j e h1 h2
    have hj : nFrames ≤ j := by omega
    rw [extend_impulse_exit samples mask frameS hopS maxDurS nFrames impulseStart
      threshold hj, extend_impulse_exit samples mask frameS hopS maxDurS nFrames
      impulseStart threshold hj]
  | succ n₁ ih =>
    intro n₂ j e h1 h2
    by_cases hj : j < nFrames
    · cases n₂ with
      | zero => omega
      | succ n₂ =>
        rw [extend_impulse, extend_impulse, if_pos hj, if_pos hj]
        dsimp only
        split_ifs with hc1 hc2 hc3
        · rfl
        · rfl
        · rfl
        · exact ih n₂ (j + 1) (min (j * hopS + frameS) samples.length)
            (by omega) (by omega)
    · have hj' : nFrames ≤ j := by omega
      rw [extend_impulse_exit samples mask frameS hopS maxDurS nFrames impulseStart
        threshold hj', extend_impulse_exit samples mask frameS hopS maxDurS nFrames
        impulseStart threshold hj']

lemma detect_impulses_loop_exit (samples mask : List ℚ)
    (sr frameS hopS maxDurS nFrames : Nat) (threshold : ℚ)
    {i : Nat} (hi : nFrames ≤ i) :
    ∀ fuel, detect_impulses_loop samples mask sr frameS hopS maxDurS nFrames threshold
      fuel i = [] := by
  intro fuel
  cases fuel with
  | zero => rfl
  | succ fuel =>
    rw [detect_impulses_loop, if_neg (by omega)]

/-- Any iteration budget of at least `nFrames - i` yields the same span
list: the budgeted recursion is exactly the source's unbounded while loop. -/
lemma detect_impulses_loop_fuel_irrel (samples mask : List ℚ)
    (sr frameS hopS maxDurS nFrames : Nat) (threshold : ℚ) :
    ∀ (n₁ n₂ i : Nat), nFrames - i ≤ n₁ → nFrames - i ≤ n₂ →
      detect_impulses_loop samples mask sr frameS hopS maxDurS nFrames threshold n₁ i =
        detect_impulses_loop samples mask sr frameS hopS maxDurS nFrames threshold
          n₂ i := by
  intro n₁
  induction n₁ with
  | zero =>
    intro n₂ i h1 h2
    have hi : nFrames ≤ i := by omega
    rw [detect_impulses_loop_exit samples mask sr frameS hopS maxDurS nFrames
      threshold hi, detect_impulses_loop_exit samples mask sr frameS hopS maxDurS
      nFrames threshold hi]
  | succ n₁ ih =>
    intro n₂ i h1 h2
    by_cases hi : i < nFrames
    · cases n₂ with
      | zero => omega
      | succ n₂ =>
        rw [detect_impulses_loop, detect_impulses_loop, if_pos hi, if_pos hi]
        dsimp only
        have hge := extend_impulse_fst_ge samples mask frameS hopS maxDurS nFrames
          (i * hopS) threshold nFrames (i + 1)
          (min (i * hopS + frameS) samples.length)
        split_ifs with hc1 hc2 hc3
        · exact ih n₂ (i + 1) (by omega) (by omega)
        · rw [ih n₂ _ (by omega) (by omega)]
        · exact ih n₂ _ (by omega) (by omega)
        · exact ih n₂ (i + 1) (by omega) (by omega)
    · have hi' : nFrames ≤ i := by omega
      rw [detect_impulses_loop_exit samples mask sr frameS hopS maxDurS nFrames
        threshold hi', detect_impulses_loop_exit samples mask sr frameS hopS maxDurS
        nFrames threshold hi']

lemma detect_impulses_loop_spans (samples mask : List ℚ)
    (sr frameS hopS maxDurS nFrames : Nat) (threshold : ℚ) :
    ∀ (fuel i : Nat),
      ∀ p ∈ detect_impulses_loop samples mask sr frameS hopS maxDurS nFrames threshold
        fuel i,
        spanAllNonSpeech mask p.1 p.2 = true := by
  intro fuel
  induction fuel with
  | zero =>
    intro i p hmem
    cases hmem
  | succ fuel ih =>
    intro i p hmem
    rw [detect_impulses_loop] at hmem
    by_cases hi : i < nFrames
    · rw [if_pos hi] at hmem
      dsimp only at hmem
      split_ifs at hmem with h1 h2 h3
      · exact ih (i + 1) p hmem
      · rcases List.mem_cons.mp hmem with heq | hmem'
        · rw [heq]
          exact h3.2
        · exact ih _ p hmem'
      · exact ih _ p hmem
      · exact ih (i + 1) p hmem
    · rw [if_neg hi] at hmem
      cases hmem

lemma takeWhile_append_eq {p : Char → Bool} :
    ∀ (l₁ : List Char) (c : Char) (l₂ : List Char),
      (∀ x ∈ l₁, p x = true) → p c = false →
      (l₁ ++ c :: l₂).takeWhile p = l₁ := by
  intro l₁
  induction l₁ with
  | nil =>
    intro c l₂ h hp
    simp [List.takeWhile_cons, hp]
  | cons a l ih =>
    intro c l₂ h hp
    simp only [List.cons_append, List.takeWhile_cons]
    rw [h a (by simp)]
    simp [ih c l₂ (fun x hx => h x (by simp [hx])) hp]

lemma digitChar6_ne_dot (d : Nat) : (digitChar6 d != '.') = true := by
  unfold digitChar6
  generalize hr : d % 10 = r
  have h : r < 10 := hr ▸ Nat.mod_lt _ (by norm_num)
  interval_cases r <;> decide

lemma digitsAfterPoint_concat (pre : String) (digits : List Char)
    (hd : ∀ c ∈ digits, (c != '.') = true) :
    digitsAfterPoint (pre ++ "." ++ String.mk digits) = digits.length := by
  unfold digitsAfterPoint
  have hdata : (pre ++ "." ++ String.mk digits).data = pre.data ++ '.' :: digits := by
    simp [String.data_append]
  rw [hdata, List.reverse_append]
  simp only [List.reverse_cons]
  rw [List.append_assoc, List.singleton_append]
  rw [takeWhile_append_eq _ _ _ (fun x hx => hd x (List.mem_reverse.mp hx)) (by decide)]
  exact List.length_reverse _

/-- Every `:.6f`-formatted value has exactly six characters after the
decimal point. -/
lemma digitsAfterPoint_format6 (q : ℚ) : digitsAfterPoint (format6 q) = 6 := by
  have h : format6 q =
      ((if roundHalfEven (q * 1000000) < 0 then "-" else "") ++
        toString ((roundHalfEven (q * 1000000)).natAbs / 1000000)) ++ "." ++
        String.mk (pad6 ((roundHalfEven (q * 1000000)).natAbs % 1000000)) := rfl
  have hd : ∀ c ∈ pad6 ((roundHalfEven (q * 1000000)).natAbs % 1000000),
      (c != '.') = true := by
    intro c hc
    simp only [pad6, List.mem_cons, List.not_mem_nil, or_false] at hc
    rcases hc with rfl | rfl | rfl | rfl | rfl | rfl <;> exact digitChar6_ne_dot _
  rw [h, digitsAfterPoint_concat _ _ hd]
  rfl

lemma event_key_le_trans :
    ∀ a b c : EventC, event_key_le a b = true → event_key_le b c = true →
      event_key_le a c = true := by
  intro a b c h1 h2
  simp only [event_key_le, decide_eq_true_eq] at h1 h2 ⊢
  exact le_trans h1 h2

lemma event_key_le_total :
    ∀ a b : EventC, (event_key_le a b || event_key_le b a) = true := by
  intro a b
  simp only [event_key_le, Bool.or_eq_true, decide_eq_true_eq]
  exact le_total _ _

/-- Claim C1: for every residual signal and non-speech mask, every event the
Events impulse detector emits arises from a candidate span all of whose
samples are marked non-speech (mask value above 0.5): a candidate with any
sample outside the non-speech mask is discarded whole — no truncated event
exists — so no emitted event's sample range contains a speech sample. -/
theorem events_emitted_only_in_non_speech
    (residual_samples mask : List ℚ) (sr frame_ms hop_ms : Nat) :
    ∀ e ∈ detect_impulses_non_speech_only residual_samples mask sr frame_ms hop_ms,
      ∃ p ∈ detect_impulse_spans residual_samples mask sr frame_ms hop_ms,
        e = span_to_event sr p ∧
        ∀ k, p.1 ≤ k → k < p.2 → ∀ v, mask[k]? = some v → 1 / 2 < v := by
  intro e he
  rw [detect_impulses_non_speech_only, List.mem_mergeSort] at he
  obtain ⟨p, hp, hpe⟩ := List.mem_map.mp he
  refine ⟨p, hp, hpe.symm, ?_⟩
  have hall : spanAllNonSpeech mask p.1 p.2 = true := by
    have hp' : p ∈ detect_impulses_loop residual_samples mask sr
        (msToSamples sr frame_ms) (msToSamples sr hop_ms)
        ((IMPULSE_MAX_DURATION_SEC * (sr : ℚ)).floor.toNat)
        (nFramesFor residual_samples.length (msToSamples sr frame_ms)
          (msToSamples sr hop_ms))
        (max (compute_peak_abs residual_samples * IMPULSE_PEAK_RATIO_C)
          IMPULSE_PEAK_THRESHOLD)
        (nFramesFor residual_samples.length (msToSamples sr frame_ms)
          (msToSamples sr hop_ms)) 0 := hp
    exact detect_impulses_loop_spans _ _ _ _ _ _ _ _ _ _ p hp'
  exact spanAllNonSpeech_spec hall

section RatEvalWitness

/- The core rational operations are `@[irreducible]`; the witnesses below
evaluate the embedded pipeline on small concrete inputs, so within this
section they are restored to ordinary reducibility (a statement about
elaboration only — it changes no definition). -/
set_option allowUnsafeReducibility true
attribute [local semireducible] Rat.add Rat.mul Rat.inv Rat.sub

/-- Concrete run of the C1 theorem: a spike across frames 0-2 of a fully
non-speech signal is emitted as one span, all of whose samples are
non-speech. -/
theorem events_emitted_only_in_non_speech_witness :
    ∃ p ∈ detect_impulse_spans [0, 1, 0, 0] [1, 1, 1, 1] 1000 2 1,
      span_to_event 1000 (0, 3) = span_to_event 1000 p ∧
      ∀ k, p.1 ≤ k → k < p.2 → ∀ v, ([1, 1, 1, 1] : List ℚ)[k]? = some v → 1 / 2 < v :=
  events_emitted_only_in_non_speech [0, 1, 0, 0] [1, 1, 1, 1] 1000 2 1
    (span_to_event 1000 (0, 3))
    (by rw [detect_impulses_non_speech_only, List.mem_mergeSort]; decide)

/-- Claim C6: every produced event has type `impulsive_sound` and confidence
exactly 1.0, its two timestamps format to exactly six decimal places, and
the output list is sorted lexicographically by `(start_s, end_s, type)`. -/
theorem events_type_confidence_sorted
    (residual_samples mask : List ℚ) (sr frame_ms hop_ms : Nat) :
    (∀ e ∈ detect_impulses_non_speech_only residual_samples mask sr frame_ms hop_ms,
        e.type = "impulsive_sound" ∧ e.confidence = 1 ∧
        digitsAfterPoint (format6 e.start_s) = 6 ∧
        digitsAfterPoint (format6 e.end_s) = 6) ∧
    (detect_impulses_non_speech_only residual_samples mask sr frame_ms hop_ms).Pairwise
      (fun a b => event_key a ≤ event_key b) := by
  constructor
  · intro e he
    rw [detect_impulses_non_speech_only, List.mem_mergeSort] at he
    obtain ⟨p, hp, hpe⟩ := List.mem_map.mp he
    rw [← hpe]
    exact ⟨rfl, rfl, digitsAfterPoint_format6 _, digitsAfterPoint_format6 _⟩
  · rw [detect_impulses_non_speech_only]
    have hs := List.sorted_mergeSort event_key_le_trans event_key_le_total
      ((detect_impulse_spans residual_samples mask sr frame_ms hop_ms).map
        (span_to_event sr))
    exact hs.imp (fun h => by simpa [event_key_le, decide_eq_true_eq] using h)

/-- Concrete run of the C6 theorem at a one-event input. -/
theorem events_type_confidence_sorted_witness :
    (span_to_event 1000 (0, 3)).type = "impulsive_sound" ∧
      (span_to_event 1000 (0, 3)).confidence = 1 ∧
      digitsAfterPoint (format6 (span_to_event 1000 (0, 3)).start_s) = 6 ∧
      digitsAfterPoint (format6 (span_to_event 1000 (0, 3)).end_s) = 6 :=
  (events_type_confidence_sorted [0, 1, 0, 0] [1, 1, 1, 1] 1000 2 1).1
    (span_to_event 1000 (0, 3))
    (by rw [detect_impulses_non_speech_only, List.mem_mergeSort]; decide)

end RatEvalWitness

/-! ### C2: separation conservation -/

lemma frame_mask_of_binary (samples : List ℚ) (frame_ms hop_ms sr : Nat) :
    ∀ v ∈ frame_mask_of samples frame_ms hop_ms sr, v = 0 ∨ v = 1 := by
  intro v hv
  obtain ⟨r, -, hr⟩ := List.mem_map.mp hv
  rw [← hr]
  split_ifs
  · exact Or.inr rfl
  · exact Or.inl rfl

lemma build_speech_mask_binary (samples : List ℚ) (sr frame_ms hop_ms : Nat) :
    ∀ v ∈ build_speech_mask samples sr frame_ms hop_ms, v = 0 ∨ v = 1 := by
  intro v hv
  rw [build_speech_mask, frame_mask_to_samples] at hv
  obtain ⟨i, -, hi⟩ := List.mem_map.mp hv
  rw [← hi]
  rcases h : (frame_mask_of samples frame_ms hop_ms sr)[min
    (i / msToSamples sr hop_ms) ((frame_mask_of samples frame_ms hop_ms sr).length - 1)]?
    with - | w
  · rw [List.getD_eq_getElem?_getD, h]
    exact Or.inl rfl
  · rw [List.getD_eq_getElem?_getD, h]
    exact frame_mask_of_binary samples frame_ms hop_ms sr w (List.getElem?_mem h)

lemma build_speech_mask_length (samples : List ℚ) (sr frame_ms hop_ms : Nat) :
    (build_speech_mask samples sr frame_ms hop_ms).length = samples.length := by
  rw [build_speech_mask, frame_mask_to_samples]
  simp

lemma zipWith_conservation :
    ∀ (x m : List ℚ), m.length = x.length →
      List.zipWith (· + ·) (List.zipWith (· * ·) x m)
        (List.zipWith (· - ·) x (List.zipWith (· * ·) x m)) = x := by
  intro x
  induction x with
  | nil => intro m h; simp
  | cons a x ih =>
    intro m h
    cases m with
    | nil => simp at h
    | cons b m =>
      simp only [List.zipWith_cons_cons, List.cons.injEq]
      constructor
      · ring
      · exact ih m (by simpa using h)

/-- Claim C2: on every canonicalized input, the Separation stage's energy
mask takes only the values 0.0 and 1.0, has the input's length, and the two
float stems satisfy `speech + residual == input` exactly (each elementwise
operation is exact in float32 because the mask is 0/1, so the rational
identity is the float32 identity). -/
theorem separation_conservation (samples : List ℚ) :
    (build_speech_mask samples CANONICAL_SAMPLE_RATE FRAME_MS HOP_MS).length =
      samples.length ∧
    (∀ v ∈ build_speech_mask samples CANONICAL_SAMPLE_RATE FRAME_MS HOP_MS,
      v = 0 ∨ v = 1) ∧
    List.zipWith (· + ·) (separation_speech samples) (separation_residual samples) =
      samples := by
  refine ⟨build_speech_mask_length samples _ _ _,
    build_speech_mask_binary samples _ _ _, ?_⟩
  rw [separation_residual, separation_speech]
  exact zipWith_conservation samples _ (build_speech_mask_length samples _ _ _)

/-! ### C3: the epsilon-under-every-root claim (corrected) -/

lemma npMean_sq_nonneg (l : List ℚ) : 0 ≤ npMean (l.map (fun v => v ^ 2)) := by
  rw [npMean]
  refine div_nonneg ?_ (by positivity)
  refine List.sum_nonneg ?_
  intro x hx
  obtain ⟨v, -, hv⟩ := List.mem_map.mp hx
  rw [← hv]
  positivity

/-- The claim "epsilon 1e-10 is added under every square root of the
signal-metric primitives" fails on `compute_rms` (audio.py:287-289): at the
all-zero input its radicand is exactly 0, not at least EPS. -/
theorem compute_rms_epsilon_counterexample :
    compute_rms_sq [0] = 0 ∧ 0 < EPS ∧ ¬ EPS ≤ compute_rms_sq [0] := by
  norm_num [compute_rms_sq, npMean, EPS]

/-- Claim C3 as the code satisfies it: the per-frame RMS radicands and the
masking global-RMS radicand always carry `+ EPS` (so are at least EPS and
never negative), while the whole-signal metric `compute_rms` adds no
epsilon — its radicand is merely nonnegative, so the square root is still
defined on all-zero input. -/
theorem rms_epsilon_amended (samples : List ℚ) (frame_ms hop_ms sr : Nat) :
    (∀ r ∈ compute_frame_rms_sq samples frame_ms hop_ms sr, EPS ≤ r) ∧
    EPS ≤ global_rms_sq samples ∧ 0 ≤ compute_rms_sq samples := by
  refine ⟨?_, ?_, ?_⟩
  · intro r hr
    rw [compute_frame_rms_sq] at hr
    obtain ⟨i, -, hi⟩ := List.mem_map.mp hr
    rw [← hi]
    have := npMean_sq_nonneg (pySlice samples (i * msToSamples sr hop_ms)
      (i * msToSamples sr hop_ms + msToSamples sr frame_ms))
    linarith
  · rw [global_rms_sq]
    have := npMean_sq_nonneg samples
    linarith
  · exact npMean_sq_nonneg samples

/-! ### C7: framing count and mask construction -/

/-- Claim C7: the framing primitive produces exactly
`max(1, (N - frame_len) // hop + 1)` frames (Python floor semantics on the
possibly negative numerator), the derived sample mask always has exactly `N`
entries, and sample `i` inherits frame `min(i // hop_len, num_frames - 1)`. -/
theorem framing_and_mask (samples : List ℚ) (frame_ms hop_ms sr : Nat) :
    (compute_frame_rms_sq samples frame_ms hop_ms sr).length =
      (max 1 (((samples.length : ℤ) - (msToSamples sr frame_ms : ℤ)).fdiv
        (msToSamples sr hop_ms : ℤ) + 1)).toNat ∧
    (build_speech_mask samples sr frame_ms hop_ms).length = samples.length ∧
    ∀ i, i < samples.length →
      (build_speech_mask samples sr frame_ms hop_ms)[i]? =
        some ((frame_mask_of samples frame_ms hop_ms sr).getD
          (min (i / msToSamples sr hop_ms)
            ((frame_mask_of samples frame_ms hop_ms sr).length - 1)) 0) := by
  refine ⟨?_, build_speech_mask_length samples sr frame_ms hop_ms, ?_⟩
  · rw [compute_frame_rms_sq]
    simp [nFramesFor]
  · intro i hi
    rw [build_speech_mask, frame_mask_to_samples]
    rw [List.getElem?_map, List.getElem?_range hi]
    rfl

/-! ### C10: the exact-zero complement between diarization and events -/

/-- Claim C10: on the PCM-16 speech stem, the Events stage's non-speech mask
(`int16 == 0`) and the Diarization stage's speech test (decoded float
`!= 0.0`, where the decode is `int16 / 32768`, exact in float32) are exact
complements: each index is non-speech in the mask exactly when it is not
diarization speech, and the mask is binary, so the two tests partition the
sample range. -/
theorem non_speech_mask_complements_diarization (xs : List ℤ) (i : Nat)
    (hi : i < xs.length) :
    ((build_non_speech_mask_from_int16 xs)[i]? = some 1 ↔
      ¬ nzAt (xs.map decodePcm16) i) ∧
    ((build_non_speech_mask_from_int16 xs)[i]? = some 0 ↔
      nzAt (xs.map decodePcm16) i) ∧
    ((build_non_speech_mask_from_int16 xs)[i]? = some 1 ∨
      (build_non_speech_mask_from_int16 xs)[i]? = some 0) := by
  have hx : xs[i]? = some xs[i] := List.getElem?_eq_getElem hi
  have hmask : (build_non_speech_mask_from_int16 xs)[i]? =
      some (if xs[i] = 0 then (1 : ℚ) else 0) := by
    rw [build_non_speech_mask_from_int16, List.getElem?_map, hx]
    rfl
  have hdec : (xs.map decodePcm16)[i]? = some (decodePcm16 xs[i]) := by
    rw [List.getElem?_map, hx]
    rfl
  have hnz : nzAt (xs.map decodePcm16) i ↔ xs[i] ≠ 0 := by
    constructor
    · rintro ⟨v, hv, hvne⟩
      rw [hdec] at hv
      intro h0
      apply hvne
      rw [← Option.some_injective _ hv, decodePcm16, h0]
      norm_num
    · intro hne
      refine ⟨decodePcm16 xs[i], hdec, ?_⟩
      rw [decodePcm16, div_ne_zero_iff]
      exact ⟨by exact_mod_cast hne, by norm_num⟩
  by_cases h0 : xs[i] = 0
  · rw [hmask, if_pos h0]
    refine ⟨⟨fun _ => ?_, fun _ => rfl⟩, ⟨fun h => ?_, fun h => ?_⟩, Or.inl rfl⟩
    · rw [hnz]
      simpa using h0
    · exact absurd (Option.some_injective _ h) (by norm_num)
    · exact absurd (hnz.mp h) (by simpa using h0)
  · rw [hmask, if_neg h0]
    refine ⟨⟨fun h => ?_, fun h => ?_⟩, ⟨fun _ => hnz.mpr h0, fun _ => rfl⟩,
      Or.inr rfl⟩
    · exact absurd (Option.some_injective _ h) (by norm_num)
    · exact absurd (hnz.mpr h0) h

/-- Concrete run of the C7 theorem: sample 0 of a two-sample input inherits
frame `min(0 // hop, num_frames - 1)`. -/
theorem framing_and_mask_witness :
    (build_speech_mask [0, 0] CANONICAL_SAMPLE_RATE FRAME_MS HOP_MS)[0]? =
      some ((frame_mask_of [0, 0] FRAME_MS HOP_MS CANONICAL_SAMPLE_RATE).getD
        (min (0 / msToSamples CANONICAL_SAMPLE_RATE HOP_MS)
          ((frame_mask_of [0, 0] FRAME_MS HOP_MS CANONICAL_SAMPLE_RATE).length - 1))
        0) :=
  (framing_and_mask [0, 0] FRAME_MS HOP_MS CANONICAL_SAMPLE_RATE).2.2 0 (by decide)

section RatEvalWitnessTwo

set_option allowUnsafeReducibility true
attribute [local semireducible] Rat.add Rat.mul Rat.inv Rat.sub

/-- Concrete run of the C2 theorem: the mask value the one-sample input `[1]`
receives is one of 0.0 and 1.0. -/
theorem separation_conservation_witness : (1 : ℚ) = 0 ∨ (1 : ℚ) = 1 :=
  (separation_conservation [1]).2.1 1 (by decide)

/-- Concrete run of the amended C3 theorem: the single frame radicand of the
all-zero one-sample signal is at least EPS. -/
theorem rms_epsilon_amended_witness :
    EPS ≤ npMean ((pySlice [0] 0 1).map (fun v => v ^ 2)) + EPS :=
  (rms_epsilon_amended [0] 1 1 1000).1
    (npMean ((pySlice [0] 0 1).map (fun v => v ^ 2)) + EPS) (by decide)

end RatEvalWitnessTwo

/-- Concrete run of the C10 theorem at index 1 of the stem `[0, 5]`. -/
theorem non_speech_mask_complements_diarization_witness :
    ((build_non_speech_mask_from_int16 [0, 5])[1]? = some 1 ↔
      ¬ nzAt (([0, 5] : List ℤ).map decodePcm16) 1) ∧
    ((build_non_speech_mask_from_int16 [0, 5])[1]? = some 0 ↔
      nzAt (([0, 5] : List ℤ).map decodePcm16) 1) ∧
    ((build_non_speech_mask_from_int16 [0, 5])[1]? = some 1 ∨
      (build_non_speech_mask_from_int16 [0, 5])[1]? = some 0) :=
  non_speech_mask_complements_diarization [0, 5] 1 (by decide)

/-! ### C4: validator -/

lemma audio_metadata_prefix_disjoint (s : String) :
    pyStartsWith s "audio/" = true → pyStartsWith s "metadata/" = true → False := by
  intro h1 h2
  rw [pyStartsWith, List.isPrefixOf_iff_prefix] at h1 h2
  have hle : ("audio/".data).length ≤ ("metadata/".data).length := by decide
  have := List.prefix_of_prefix_length_le h1 h2 hle
  exact absurd this (by decide)

/-- The if/elif MIME check of the source is exactly the rule of the spec:
an artifact is a type error iff its role starts with `audio/` and its type
does not, or its role starts with `metadata/` and its type is not
`application/json`. -/
lemma mimeTypeError_iff (a : ArtifactRef) :
    mimeTypeError a ≠ none ↔
      ((pyStartsWith a.role "audio/" = true ∧ ¬ pyStartsWith a.type "audio/" = true) ∨
        (pyStartsWith a.role "metadata/" = true ∧ a.type ≠ "application/json")) := by
  rw [mimeTypeError]
  by_cases h1 : pyStartsWith a.role "audio/" = true
  · rw [if_pos h1]
    by_cases h2 : pyStartsWith a.type "audio/" = true
    · rw [if_neg (by simpa using h2)]
      constructor
      · intro h; exact absurd rfl h
      · rintro (⟨-, hc⟩ | ⟨hm, -⟩)
        · exact absurd h2 hc
        · exact absurd (audio_metadata_prefix_disjoint a.role h1 hm) not_false
    · rw [if_pos (by simpa using h2)]
      constructor
      · intro _
        exact Or.inl ⟨h1, h2⟩
      · intro _
        simp
  · rw [if_neg h1]
    by_cases h3 : pyStartsWith a.role "metadata/" = true
    · rw [if_pos h3]
      by_cases h4 : a.type = "application/json"
      · rw [if_neg (by simpa using h4)]
        constructor
        · intro h; exact absurd rfl h
        · rintro (⟨ha, -⟩ | ⟨-, hj⟩)
          · exact absurd ha h1
          · exact absurd h4 hj
      · rw [if_pos h4]
        constructor
        · intro _
          exact Or.inr ⟨h3, h4⟩
        · intro _
          simp
    · rw [if_neg h3]
      constructor
      · intro h; exact absurd rfl h
      · rintro (⟨ha, -⟩ | ⟨hm, -⟩)
        · exact absurd ha h1
        · exact absurd hm h3

/-- Claim C4: `validate` succeeds (changing nothing) iff every required role
is available and no artifact violates the MIME rule; otherwise it raises a
structured error carrying exactly the missing roles
(`requires - available_roles`), the available roles, and the type errors;
and the MIME rule is exactly the audio-prefix/metadata-json rule. -/
theorem validate_characterization (contract : StageContract)
    (available : List ArtifactRef) :
    (validate contract available = Except.ok () ↔
      ((∀ r ∈ contract.requires, r ∈ available.map (fun a => a.role)) ∧
        (∀ a ∈ available, mimeTypeError a = none))) ∧
    (∀ e, validate contract available = Except.error e →
      (e.stage = contract.name ∧
        (∀ r, r ∈ e.missing_roles ↔
          (r ∈ contract.requires ∧ ¬ r ∈ available.map (fun a => a.role))) ∧
        e.available_roles = available.map (fun a => a.role) ∧
        e.type_errors = available.filterMap mimeTypeError ∧
        (e.missing_roles ≠ [] ∨ e.type_errors ≠ []))) ∧
    (∀ a : ArtifactRef, mimeTypeError a ≠ none ↔
      ((pyStartsWith a.role "audio/" = true ∧ ¬ pyStartsWith a.type "audio/" = true) ∨
        (pyStartsWith a.role "metadata/" = true ∧ a.type ≠ "application/json"))) := by
  refine ⟨?_, ?_, fun a => mimeTypeError_iff a⟩
  · rw [validate]
    split_ifs with hcond
    · constructor
      · intro h; cases h
      · rintro ⟨hreq, hmime⟩
        exfalso
        rcases hcond with hm | ht
        · apply hm
          rw [List.filter_eq_nil_iff]
          intro r hr
          simpa using hreq r hr
        · apply ht
          rw [List.filterMap_eq_nil_iff]
          exact hmime
    · push_neg at hcond
      constructor
      · intro _
        constructor
        · intro r hr
          have h1 := hcond.1
          rw [List.filter_eq_nil_iff] at h1
          simpa using h1 r hr
        · intro a ha
          have h2 := hcond.2
          rw [List.filterMap_eq_nil_iff] at h2
          exact h2 a ha
      · intro _
        rfl
  · intro e he
    rw [validate] at he
    split_ifs at he with hcond
    · have he' := (Except.error.injEq _ _).mp he
      rw [← he']
      refine ⟨rfl, ?_, rfl, rfl, hcond⟩
      intro r
      simp [List.mem_filter]

/-- Concrete run of the C4 theorem: a contract requiring `audio/speech`
validated against no artifacts raises the error listing exactly that
missing role. -/
theorem validate_characterization_witness :
    ((ValidationErrorS.mk "sqi" ["audio/speech"] [] []).stage = "sqi" ∧
      (∀ r, r ∈ (ValidationErrorS.mk "sqi" ["audio/speech"] [] []).missing_roles ↔
        (r ∈ ["audio/speech"] ∧
          ¬ r ∈ ([] : List ArtifactRef).map (fun a => a.role))) ∧
      (ValidationErrorS.mk "sqi" ["audio/speech"] [] []).available_roles =
        ([] : List ArtifactRef).map (fun a => a.role) ∧
      (ValidationErrorS.mk "sqi" ["audio/speech"] [] []).type_errors =
        ([] : List ArtifactRef).filterMap mimeTypeError ∧
      ((ValidationErrorS.mk "sqi" ["audio/speech"] [] []).missing_roles ≠ [] ∨
        (ValidationErrorS.mk "sqi" ["audio/speech"] [] []).type_errors ≠ [])) :=
  (validate_characterization ⟨"sqi", ["audio/speech"], ["metadata/sqi"], "1.0.0"⟩ []).2.1
    (ValidationErrorS.mk "sqi" ["audio/speech"] [] []) rfl

/-! ### C8: rollup is an observer -/

lemma rollup_core (statuses : String → Option StageStatus) :
    ∀ expected : List String,
      (if expected.filter (fun name => (statuses name).isNone) ≠ [] then false
       else (expected.filterMap
          (fun name => (statuses name).map (fun st => (name, st)))).all
        (fun p => p.2.success.getD false)) =
      expected.all (fun name =>
        ((statuses name).map (fun st => st.success.getD false)).getD false) := by
  intro expected
  induction expected with
  | nil => simp
  | cons n l ih =>
    cases h : statuses n with
    | none =>
      simp [List.filter_cons, List.filterMap_cons, h]
    | some st =>
      simp only [List.filter_cons, List.filterMap_cons, h, Option.isNone_some,
        Bool.false_eq_true, if_false, Option.map_some', List.all_cons,
        Option.getD_some]
      by_cases hf : l.filter (fun name => (statuses name).isNone) ≠ []
      · rw [if_pos hf]
        rw [if_pos hf] at ih
        rw [← ih]
        simp
      · rw [if_neg hf]
        rw [if_neg hf] at ih
        rw [ih]

/-- Claim C8: the Rollup stage is a total observer: it returns normally with
no new artifacts, and the overall success it records equals the conjunction
over the fixed expected-stage list of "status present and its success flag
true" (a missing status file therefore forces overall failure). -/
theorem rollup_observer (statuses : String → Option StageStatus) :
    (RollupStage_run statuses).2 = [] ∧
    (RollupStage_run statuses).1 = EXPECTED_STAGES.all (fun name =>
      ((statuses name).map (fun st => st.success.getD false)).getD false) := by
  refine ⟨rfl, ?_⟩
  rw [RollupStage_run]
  rw [rollup_overall_success]
  exact rollup_core statuses EXPECTED_STAGES

/-! ### Binary64 rounding lemmas (for C5) -/

lemma roundHalfEven_ge_floor (q : ℚ) : ⌊q⌋ ≤ roundHalfEven q := by
  rw [roundHalfEven]
  split_ifs <;> omega

lemma roundHalfEven_le_floor_add_one (q : ℚ) : roundHalfEven q ≤ ⌊q⌋ + 1 := by
  rw [roundHalfEven]
  split_ifs <;> omega

lemma roundHalfEven_mono {a b : ℚ} (h : a ≤ b) :
    roundHalfEven a ≤ roundHalfEven b := by
  by_cases hf : ⌊a⌋ < ⌊b⌋
  · calc roundHalfEven a ≤ ⌊a⌋ + 1 := roundHalfEven_le_floor_add_one a
    _ ≤ ⌊b⌋ := by omega
    _ ≤ roundHalfEven b := roundHalfEven_ge_floor b
  · have hfe : ⌊a⌋ = ⌊b⌋ := le_antisymm (Int.floor_le_floor h) (by omega)
    rw [roundHalfEven, roundHalfEven, hfe]
    split_ifs <;> first | omega | linarith

lemma expSearchUp_spec (n d : ℕ) :
    ∀ fuel l, d * 2 ^ l ≤ n → n < d * 2 ^ (l + fuel + 1) →
      d * 2 ^ expSearchUp n d fuel l ≤ n ∧
        n < d * 2 ^ (expSearchUp n d fuel l + 1) := by
  intro fuel
  induction fuel with
  | zero =>
    intro l h1 h2
    simp only [expSearchUp]
    exact ⟨h1, by simpa using h2⟩
  | succ fuel ih =>
    intro l h1 h2
    simp only [expSearchUp]
    by_cases hc : d * 2 ^ (l + 1) ≤ n
    · rw [if_pos hc]
      refine ih (l + 1) hc ?_
      have he : l + 1 + fuel + 1 = l + (fuel + 1) + 1 := by omega
      rw [he]
      exact h2
    · rw [if_neg hc]
      exact ⟨h1, Nat.lt_of_not_le hc⟩

lemma expSearchUp_top (n d : ℕ) (hd : 0 < d) (hdn : d ≤ n) :
    d * 2 ^ expSearchUp n d n 0 ≤ n ∧ n < d * 2 ^ (expSearchUp n d n 0 + 1) := by
  refine expSearchUp_spec n d n 0 (by simpa using hdn) ?_
  have h1 : n < 2 ^ n := Nat.lt_two_pow n
  have h2 : 2 ^ n ≤ 2 ^ (0 + n + 1) := Nat.pow_le_pow_right (by norm_num) (by omega)
  have h3 : 2 ^ (0 + n + 1) ≤ d * 2 ^ (0 + n + 1) := Nat.le_mul_of_pos_left _ hd
  omega

lemma expSearchDown_spec (n d : ℕ) :
    ∀ fuel m, (m = 0 ∨ n * 2 ^ (m - 1) < d) → d ≤ n * 2 ^ (m + fuel) →
      d ≤ n * 2 ^ expSearchDown n d fuel m ∧
        (expSearchDown n d fuel m = 0 ∨
          n * 2 ^ (expSearchDown n d fuel m - 1) < d) := by
  intro fuel
  induction fuel with
  | zero =>
    intro m hm h
    simp only [expSearchDown]
    exact ⟨by simpa using h, hm⟩
  | succ fuel ih =>
    intro m hm h
    simp only [expSearchDown]
    by_cases hc : d ≤ n * 2 ^ m
    · rw [if_pos hc]
      exact ⟨hc, hm⟩
    · rw [if_neg hc]
      refine ih (m + 1) (Or.inr (by simpa using Nat.lt_of_not_le hc)) ?_
      have he : m + 1 + fuel = m + (fuel + 1) := by omega
      rw [he]
      exact h

lemma expSearchDown_top (n d : ℕ) (hn : 0 < n) :
    d ≤ n * 2 ^ expSearchDown n d d 0 ∧
      (expSearchDown n d d 0 = 0 ∨ n * 2 ^ (expSearchDown n d d 0 - 1) < d) := by
  refine expSearchDown_spec n d d 0 (Or.inl rfl) ?_
  have h1 : d < 2 ^ d := Nat.lt_two_pow d
  have h2 : 2 ^ (0 + d) ≤ n * 2 ^ (0 + d) := Nat.le_mul_of_pos_left _ hn
  simp only [Nat.zero_add] at h2
  simp only [Nat.zero_add]
  omega

lemma flExp_spec (q : ℚ) (hq : 0 < q) :
    (2 : ℚ) ^ flExp q ≤ q ∧ q < (2 : ℚ) ^ (flExp q + 1) := by
  have hnum : (0 : ℤ) < q.num := Rat.num_pos.mpr hq
  have hd : 0 < q.den := q.den_pos
  have hn : 0 < q.num.toNat := by omega
  have hdq : (0 : ℚ) < (q.den : ℚ) := by exact_mod_cast hd
  have hq_eq : q = (q.num.toNat : ℚ) / (q.den : ℚ) := by
    have h1 : (q.num.toNat : ℚ) = (q.num : ℚ) := by
      exact_mod_cast Int.toNat_of_nonneg hnum.le
    rw [h1, Rat.num_div_den]
  rw [flExp]
  by_cases hnd : q.den ≤ q.num.toNat
  · rw [if_pos hnd]
    obtain ⟨h1, h2⟩ := expSearchUp_top q.num.toNat q.den hd hnd
    set l := expSearchUp q.num.toNat q.den q.num.toNat 0 with hl
    constructor
    · rw [zpow_natCast, hq_eq, le_div_iff₀ hdq]
      have h1' : ((q.den * 2 ^ l : ℕ) : ℚ) ≤ ((q.num.toNat : ℕ) : ℚ) := by
        exact_mod_cast h1
      push_cast at h1'
      linarith
    · have he : (l : ℤ) + 1 = ((l + 1 : ℕ) : ℤ) := by push_cast; ring
      rw [he, zpow_natCast, hq_eq, div_lt_iff₀ hdq]
      have h2' : ((q.num.toNat : ℕ) : ℚ) < ((q.den * 2 ^ (l + 1) : ℕ) : ℚ) := by
        exact_mod_cast h2
      push_cast at h2'
      linarith
  · rw [if_neg hnd]
    obtain ⟨h1, h2'⟩ := expSearchDown_top q.num.toNat q.den hn
    set m := expSearchDown q.num.toNat q.den q.den 0 with hm
    have hm1 : 1 ≤ m := by
      by_contra h0
      have hm0 : m = 0 := by omega
      rw [hm0, pow_zero, mul_one] at h1
      omega
    have h2 : q.num.toNat * 2 ^ (m - 1) < q.den := by
      rcases h2' with h0 | h
      · omega
      · exact h
    have hpm : (0 : ℚ) < (2 : ℚ) ^ (m : ℕ) := by positivity
    have hpm' : (0 : ℚ) < (2 : ℚ) ^ (m - 1 : ℕ) := by positivity
    constructor
    · rw [zpow_neg, zpow_natCast, hq_eq, inv_eq_one_div,
        div_le_div_iff₀ hpm hdq]
      have h1' : ((q.den : ℕ) : ℚ) ≤ ((q.num.toNat * 2 ^ m : ℕ) : ℚ) := by
        exact_mod_cast h1
      push_cast at h1'
      linarith
    · have he : (-(m : ℤ)) + 1 = -((m - 1 : ℕ) : ℤ) := by
        have : ((m - 1 : ℕ) : ℤ) = (m : ℤ) - 1 := by
          push_cast [Nat.cast_sub hm1]
          ring
        rw [this]
        ring
      rw [he, zpow_neg, zpow_natCast, hq_eq, inv_eq_one_div,
        div_lt_div_iff₀ hdq hpm']
      have h2'' : ((q.num.toNat * 2 ^ (m - 1) : ℕ) : ℚ) < ((q.den : ℕ) : ℚ) := by
        exact_mod_cast h2
      push_cast at h2''
      linarith

lemma fl_zero : fl 0 = 0 := by
  rw [fl, if_pos rfl]

lemma fl_eq_of_pos {q : ℚ} (hq : 0 < q) :
    fl q = (roundHalfEven (q * (2 : ℚ) ^ (52 - flExp q)) : ℚ) *
      (2 : ℚ) ^ (flExp q - 52) := by
  rw [fl, if_neg hq.ne']
  dsimp only
  rw [if_neg (not_lt.mpr hq.le), abs_of_pos hq, one_mul, neg_sub]

lemma fl_bounds {q : ℚ} (hq : 0 < q) :
    (2 : ℚ) ^ flExp q ≤ fl q ∧ fl q ≤ (2 : ℚ) ^ (flExp q + 1) := by
  obtain ⟨hlo, hhi⟩ := flExp_spec q hq
  set L := flExp q with hL
  have h2ne : (2 : ℚ) ≠ 0 := by norm_num
  have h2pos : (0 : ℚ) < (2 : ℚ) ^ (52 - L) := zpow_pos (by norm_num) _
  have h2pos' : (0 : ℚ) < (2 : ℚ) ^ (L - 52) := zpow_pos (by norm_num) _
  set m := q * (2 : ℚ) ^ (52 - L) with hm
  have hmlo : (2 : ℚ) ^ (52 : ℤ) ≤ m := by
    calc (2 : ℚ) ^ (52 : ℤ) = (2 : ℚ) ^ L * (2 : ℚ) ^ (52 - L) := by
          rw [← zpow_add₀ h2ne]
          congr 1
          ring
    _ ≤ q * (2 : ℚ) ^ (52 - L) := mul_le_mul_of_nonneg_right hlo h2pos.le
  have hmhi : m < (2 : ℚ) ^ (53 : ℤ) := by
    calc m < (2 : ℚ) ^ (L + 1) * (2 : ℚ) ^ (52 - L) :=
          mul_lt_mul_of_pos_right hhi h2pos
    _ = (2 : ℚ) ^ (53 : ℤ) := by
          rw [← zpow_add₀ h2ne]
          congr 1
          ring
  have hz52 : ((2 : ℚ) ^ (52 : ℤ)) = (((2 : ℤ) ^ (52 : ℕ) : ℤ) : ℚ) := by
    norm_num
  have hz53 : ((2 : ℚ) ^ (53 : ℤ)) = (((2 : ℤ) ^ (53 : ℕ) : ℤ) : ℚ) := by
    norm_num
  have hrlo : ((2 : ℤ) ^ (52 : ℕ)) ≤ roundHalfEven m := by
    have hfloor : ((2 : ℤ) ^ (52 : ℕ)) ≤ ⌊m⌋ := by
      rw [Int.le_floor]
      rw [hz52] at hmlo
      exact hmlo
    exact le_trans hfloor (roundHalfEven_ge_floor m)
  have hrhi : roundHalfEven m ≤ (2 : ℤ) ^ (53 : ℕ) := by
    have hfloor : ⌊m⌋ < (2 : ℤ) ^ (53 : ℕ) := by
      rw [Int.floor_lt]
      rw [hz53] at hmhi
      exact hmhi
    have := roundHalfEven_le_floor_add_one m
    omega
  have hfl : fl q = (roundHalfEven m : ℚ) * (2 : ℚ) ^ (L - 52) := fl_eq_of_pos hq
  constructor
  · rw [hfl]
    calc (2 : ℚ) ^ L = (2 : ℚ) ^ (52 : ℤ) * (2 : ℚ) ^ (L - 52) := by
          rw [← zpow_add₀ h2ne]
          congr 1
          ring
    _ ≤ (roundHalfEven m : ℚ) * (2 : ℚ) ^ (L - 52) := by
          refine mul_le_mul_of_nonneg_right ?_ h2pos'.le
          rw [hz52]
          exact_mod_cast hrlo
  · rw [hfl]
    calc (roundHalfEven m : ℚ) * (2 : ℚ) ^ (L - 52) ≤
        (2 : ℚ) ^ (53 : ℤ) * (2 : ℚ) ^ (L - 52) := by
          refine mul_le_mul_of_nonneg_right ?_ h2pos'.le
          rw [hz53]
          exact_mod_cast hrhi
    _ = (2 : ℚ) ^ (L + 1) := by
          rw [← zpow_add₀ h2ne]
          congr 1
          ring

lemma fl_nonneg {q : ℚ} (h : 0 ≤ q) : 0 ≤ fl q := by
  rcases eq_or_lt_of_le h with h0 | hpos
  · rw [← h0, fl_zero]
  · exact le_trans (zpow_pos (by norm_num) _).le (fl_bounds hpos).1

/-- Binary64 rounding is monotone on nonnegative values; this is what makes
the rounded segment lists keep the sample-level ordering. -/
lemma fl_mono {a b : ℚ} (ha : 0 ≤ a) (h : a ≤ b) : fl a ≤ fl b := by
  rcases eq_or_lt_of_le ha with ha0 | hapos
  · rw [← ha0, fl_zero]
    exact fl_nonneg (ha0 ▸ h)
  · have hbpos : 0 < b := lt_of_lt_of_le hapos h
    have hLle : flExp a ≤ flExp b := by
      by_contra hlt
      push_neg at hlt
      have h1 := (flExp_spec a hapos).1
      have h2 := (flExp_spec b hbpos).2
      have h3 : (2 : ℚ) ^ (flExp b + 1) ≤ (2 : ℚ) ^ flExp a :=
        zpow_le_zpow_right₀ (by norm_num) (by omega)
      linarith
    rcases eq_or_lt_of_le hLle with hLeq | hLlt
    · rw [fl_eq_of_pos hapos, fl_eq_of_pos hbpos, ← hLeq]
      refine mul_le_mul_of_nonneg_right ?_ (zpow_pos (by norm_num) _).le
      exact_mod_cast roundHalfEven_mono
        (mul_le_mul_of_nonneg_right h (zpow_pos (by norm_num) _).le)
    · calc fl a ≤ (2 : ℚ) ^ (flExp a + 1) := (fl_bounds hapos).2
      _ ≤ (2 : ℚ) ^ flExp b := zpow_le_zpow_right₀ (by norm_num) (by omega)
      _ ≤ fl b := (fl_bounds hbpos).1

/-! ### C5: diarization segment invariants (corrected) -/

/-- Claim C5 as amended: the Diarization stage's segments are exactly the
maximal contiguous runs of exactly-non-zero samples whose
*double-precision-computed* duration `fl (fl (b/sr) - fl (a/sr))` reaches
the binary64 constant 0.2 (never merged, regardless of gap size); the list
is sorted by start and non-overlapping, and the serialized output
attributes it to the single fixed pseudo-speaker with both times rounded to
6 decimals. -/
theorem diarization_segment_invariants (samples : List ℚ) (sr : Nat)
    (hsr : 0 < sr) :
    (∀ seg ∈ diarization_segments samples sr,
      ∃ a b : Nat,
        seg = (fl ((a : ℚ) / (sr : ℚ)), fl ((b : ℚ) / (sr : ℚ))) ∧
        maximalRun samples a b ∧
        MIN_SEGMENT_DURATION ≤
          fl (fl ((b : ℚ) / (sr : ℚ)) - fl ((a : ℚ) / (sr : ℚ)))) ∧
    (∀ a b : Nat, maximalRun samples a b →
      MIN_SEGMENT_DURATION ≤
        fl (fl ((b : ℚ) / (sr : ℚ)) - fl ((a : ℚ) / (sr : ℚ))) →
      (fl ((a : ℚ) / (sr : ℚ)), fl ((b : ℚ) / (sr : ℚ))) ∈
        diarization_segments samples sr) ∧
    (diarization_segments samples sr).Pairwise (fun p q => p.1 ≤ q.1 ∧ p.2 ≤ q.1) ∧
    (∀ sp ∈ diarization_speakers samples sr, sp.1 = SPEAKER_ID ∧
      sp.2 = (diarization_segments samples sr).map
        (fun p => (pyRound6 p.1, pyRound6 p.2))) := by
  have hsrq : (0 : ℚ) < (sr : ℚ) := by exact_mod_cast hsr
  refine ⟨?_, ?_, ?_, ?_⟩
  · intro seg hseg
    rw [diarization_segments, drop_short_segments] at hseg
    have hseg' := List.mem_of_mem_filter hseg
    have hdur := List.of_mem_filter hseg
    rw [find_speech_regions] at hseg'
    obtain ⟨⟨a, b⟩, hab, habeq⟩ := List.mem_map.mp hseg'
    refine ⟨a, b, habeq.symm, (find_regions_characterization samples a b).mp hab, ?_⟩
    rw [← habeq] at hdur
    simpa using hdur
  · intro a b hrun hdur
    rw [diarization_segments, drop_short_segments]
    refine List.mem_filter.mpr ⟨?_, ?_⟩
    · rw [find_speech_regions]
      exact List.mem_map.mpr
        ⟨(a, b), (find_regions_characterization samples a b).mpr hrun, rfl⟩
    · simpa using hdur
  · rw [diarization_segments, drop_short_segments, find_speech_regions]
    refine List.Pairwise.filter _ ?_
    rw [List.pairwise_map]
    obtain ⟨hpw, hbd⟩ := find_regions_from_ordered samples 0 false 0 0
      (by intro h; cases h) (fun _ => le_rfl)
    refine (hpw.imp_of_mem ?_)
    intro p q hp hq hle
    have h1 := (hbd p hp).2
    have hq1 : ((p.1 : ℚ)) / (sr : ℚ) ≤ ((q.1 : ℚ)) / (sr : ℚ) := by
      rw [div_le_div_iff_of_pos_right hsrq]
      exact_mod_cast by omega
    have hq2 : ((p.2 : ℚ)) / (sr : ℚ) ≤ ((q.1 : ℚ)) / (sr : ℚ) := by
      rw [div_le_div_iff_of_pos_right hsrq]
      exact_mod_cast hle
    exact ⟨fl_mono (by positivity) hq1, fl_mono (by positivity) hq2⟩
  · intro sp hsp
    rw [diarization_speakers] at hsp
    split_ifs at hsp with hempty
    · cases hsp
    · rcases List.mem_cons.mp hsp with heq | h
      · rw [heq]
        exact ⟨rfl, rfl⟩
      · cases h

/-! ### C9: determinism -/

/-- Claim C9: determinism as a two-run hyperproperty — the content of every
produced artifact (both WAV stems and the sqi/diarization/events payloads)
is a pure function of the canonicalized input samples, so two runs on equal
input bytes produce byte-identical artifacts.  The embedding itself
witnesses the purity: no clock, randomness or other ambient state occurs in
any composed definition. -/
theorem pipeline_deterministic (a b : List ℚ) (h : a = b) :
    pipeline_outputs a = pipeline_outputs b := by rw [h]

/-- Concrete two-run instance of the C9 theorem. -/
theorem pipeline_deterministic_witness :
    pipeline_outputs [0] = pipeline_outputs [0] :=
  pipeline_deterministic [0] [0] rfl

section RatEvalWitnessThree

set_option allowUnsafeReducibility true
set_option maxRecDepth 100000
attribute [local semireducible] Rat.add Rat.mul Rat.inv Rat.sub

/-- The original C5 claim is false of the code: `[0, 0, 1]` at 5 Hz has the
maximal non-zero run `[2, 3)` of exact duration 0.2 s, but the stage
computes the duration in binary64 —
`fl (fl 0.6 - fl 0.4) = 900719925474099 / 2^52 ≈ 0.19999999999999996` —
which falls below the binary64 constant 0.2, so the run is dropped and no
segment is emitted. -/
theorem diarization_exact_duration_counterexample :
    maximalRun [0, 0, 1] 2 3 ∧
    (1 : ℚ) / 5 ≤ (((3 : Nat) : ℚ) - ((2 : Nat) : ℚ)) / ((5 : Nat) : ℚ) ∧
    diarization_segments [0, 0, 1] 5 = [] := by
  refine ⟨?_, by norm_num, by decide⟩
  refine ⟨by omega, by simp, ?_, ?_, ?_⟩
  · intro k hk1 hk2
    have hk : k = 2 := by omega
    subst hk
    exact ⟨1, rfl, one_ne_zero⟩
  · right
    rintro ⟨v, hv, hvne⟩
    simp at hv
    exact hvne hv.symm
  · rintro ⟨v, hv, hvne⟩
    simp at hv

/-- Concrete run of the amended C5 theorem: the single maximal non-zero run
of `[1, 1, 1]` at 10 Hz has binary64 duration `fl 0.3 > fl 0.2` and is the
one emitted segment. -/
theorem diarization_segment_invariants_witness :
    (fl (((0 : Nat) : ℚ) / ((10 : Nat) : ℚ)),
      fl (((3 : Nat) : ℚ) / ((10 : Nat) : ℚ))) ∈
      diarization_segments [1, 1, 1] 10 :=
  (diarization_segment_invariants [1, 1, 1] 10 (by decide)).2.1 0 3
    (by
      refine ⟨by omega, by simp, ?_, Or.inl rfl, ?_⟩
      · intro k hk1 hk2
        interval_cases k <;> exact ⟨1, rfl, one_ne_zero⟩
      · rintro ⟨v, hv, hvne⟩
        simp at hv)
    (by decide)

end RatEvalWitnessThree

end Soundmind
